import Mathlib

/-!
# lichess_watch: the FEN validator, the FEN decoder, the consumer step and the feed reader

Shallow embedding of `main.go`.

Modelling conventions.

* A Go `string` is modelled as the list of its runes (`GoString = List Char`).  The strings
  that reach this code are produced by `json.Unmarshal`, which always yields valid UTF-8, so
  `for _, char := range s` visits exactly these runes and `string(char)` is the one-rune
  string `[char]`.  Splitting on the ASCII separators `" "` and `"/"` commutes with UTF-8
  decoding.
* `[8][8]string` is modelled as a list of rows (`Board`); the zero value has 8 rows of 8
  zero strings.  An indexed write `board[i][col] = v` is `setCell`, which is `none` when
  `i` or `col` is outside `0..7` (the Go runtime panics with "index out of range").
* A function that can panic returns `Option`; `none` is the panic.
-/

namespace LichessWatch

/-- A Go string, as the list of its runes. -/
abbrev GoString := List Char

/-- The Go type `[8][8]string`, as a list of rows. -/
abbrev Board := List (List GoString)

/-- Go's `strings.Split(s, sep)` for a one-rune separator: the substrings between the
separators, in order; for a string without separator (the empty string included) the
one-element list holding that string. -/
def Split (s : GoString) (sep : Char) : List GoString :=
  match s with
  | [] => [[]]
  | c :: cs =>
    if c = sep then [] :: Split cs sep
    else
      match Split cs sep with
      | [] => [[c]]
      | seg :: segs => (c :: seg) :: segs

/-- Go's `strings.ContainsRune(s, r)`. -/
def ContainsRune (s : GoString) (r : Char) : Bool :=
  s.contains r

/-- The zero value of `[8][8]string` (`var board [8][8]string`). -/
def zeroBoard : Board :=
  List.replicate 8 (List.replicate 8 [])

/-- The indexed write `board[i][col] = v`; `none` is the index-out-of-range panic. -/
def setCell (board : Board) (i col : Nat) (v : GoString) : Option Board :=
  if i < 8 ∧ col < 8 then
    some (board.set i ((board.getD i []).set col v))
  else none

/-- The indexed read `board[row][col]` for `row`, `col` in `0..7`. -/
def cell (board : Board) (row col : Nat) : GoString :=
  (board.getD row []).getD col []

/-- The condition `char >= '1' && char <= '8'`. -/
def isDigit18 (char : Char) : Bool :=
  decide ('1' ≤ char) && decide (char ≤ '8')

/-- The loop `for j := 0; j < numEmpty; j++ { board[i][col] = "."; col++ }`, by the number
of iterations left; the state is the board and the column cursor. -/
def fillEmpty (i : Nat) (numEmpty : Nat) (st : Board × Nat) : Option (Board × Nat) :=
  match numEmpty with
  | 0 => some st
  | n + 1 =>
    match setCell st.1 i st.2 ['.'] with
    | none => none
    | some board => fillEmpty i n (board, st.2 + 1)

/-- The body of the inner loop of `ConvertFENToArray` for one rune of a rank. -/
def placeChar (i : Nat) (st : Board × Nat) (char : Char) : Option (Board × Nat) :=
  if isDigit18 char then
    fillEmpty i (char.toNat - '0'.toNat) st
  else
    match setCell st.1 i st.2 [char] with
    | none => none
    | some board => some (board, st.2 + 1)

/-- The inner loop `for _, char := range row` of `ConvertFENToArray`. -/
def scanRow (i : Nat) (row : GoString) (st : Board × Nat) : Option (Board × Nat) :=
  match row with
  | [] => some st
  | char :: rest =>
    match placeChar i st char with
    | none => none
    | some st1 => scanRow i rest st1

/-- The outer loop `for i, row := range fenRows` of `ConvertFENToArray`, from index `i`;
each rank starts with `col := 0`. -/
def scanRows (i : Nat) (fenRows : List GoString) (board : Board) : Option Board :=
  match fenRows with
  | [] => some board
  | row :: rest =>
    match scanRow i row (board, 0) with
    | none => none
    | some st => scanRows (i + 1) rest st.1

/-- The function `ConvertFENToArray` of `main.go`; `none` is a run-time panic. -/
def ConvertFENToArray (fen : GoString) : Option Board :=
  if fen = [] then some zeroBoard
  else
    match Split fen ' ' with
    | [] => none
    | rows :: _ => scanRows 0 (Split rows '/') zeroBoard

/-- The test `char >= '1' && char <= '8' || strings.ContainsRune("rnbqkpRNBQKP", char)`. -/
def validChar (char : Char) : Bool :=
  isDigit18 char || ContainsRune "rnbqkpRNBQKP".toList char

/-- The inner loop of `isValidFEN` over the runes of one rank; `false` is the early
`return false`. -/
def rowValid (row : GoString) : Bool :=
  match row with
  | [] => true
  | char :: rest => if !validChar char then false else rowValid rest

/-- The outer loop of `isValidFEN` over the ranks. -/
def rowsValid (fenRows : List GoString) : Bool :=
  match fenRows with
  | [] => true
  | row :: rest => if rowValid row then rowsValid rest else false

/-- The function `isValidFEN` of `main.go`. -/
def isValidFEN (fen : GoString) : Bool :=
  let parts := Split fen ' '
  if parts.length ≠ 6 then false
  else
    match parts with
    | [] => false
    | boardPart :: _ =>
      let fenRows := Split boardPart '/'
      if fenRows.length ≠ 8 then false
      else rowsValid fenRows

/-- The string literal `"rnbqkbnr/pppppppp/8/8/8/8/PPPPPPPP/RNBQKBNR"` of `update` and
`main`. -/
def startFEN : GoString :=
  "rnbqkbnr/pppppppp/8/8/8/8/PPPPPPPP/RNBQKBNR".toList

/-- The variable `InitalFEN` of `main`, the first value sent on the channel. -/
def InitalFEN : GoString :=
  "rnbqkbnr/pppppppp/8/8/8/8/PPPPPPPP/RNBQKBNR".toList

/-- The first check of `update`: `if NewFen == "" { NewFen = start }`. -/
def firstCheck (NewFen : GoString) : GoString :=
  if NewFen = [] then startFEN else NewFen

/-- The second check of `update`: `if !isValidFEN(NewFen) { NewFen = start }`. -/
def secondCheck (NewFen : GoString) : GoString :=
  if !isValidFEN NewFen then startFEN else NewFen

/-- The string `update` passes to `ConvertFENToArray` for a received `NewFen`. -/
def updateFen (NewFen : GoString) : GoString :=
  secondCheck (firstCheck NewFen)

/-- The grid `update` computes for one received position: `board :=
ConvertFENToArray(NewFen)` after the two checks; `none` is a panic of the consumer. -/
def updateBoard (NewFen : GoString) : Option Board :=
  ConvertFENToArray (updateFen NewFen)

/-- The struct `Data` of `main.go`. -/
structure Data where
  FEN : GoString
  LM : GoString
  WC : Int
  BC : Int

/-- The struct `FeedResponse` of `main.go`. -/
structure FeedResponse where
  T : GoString
  D : Data

/-- How a run of `fetchData` ends: it returns, and the deferred `close(fenChan)` runs
(`Closed`); or `log.Fatal` ends the process with `os.Exit(1)`, which runs no deferred call,
so the channel is never closed (`FatalError`). -/
inductive FeedState where
  | Closed
  | FatalError
deriving DecidableEq

/-- What `fetchData` meets on the network: whether `http.NewRequest` and `client.Do`
report an error, the status code of the response, the lines `scanner.Scan` delivers,
and whether `scanner.Err()` is non-nil once `Scan` has returned false. -/
structure Feed where
  requestErr : Bool
  doErr : Bool
  statusCode : Nat
  lines : List GoString
  scanErr : Bool

/-- The result of a run of `fetchData`: the values sent on `fenChan`, in order, and the
final state. -/
structure FetchResult where
  sent : List GoString
  final : FeedState

/-- The loop `for scanner.Scan() { ... }` of `fetchData` over the lines still to come;
`sent` holds the values already sent on the channel.  `unmarshal` is `json.Unmarshal` into
a `FeedResponse`, `none` being a non-nil error. -/
def scanLoop (unmarshal : GoString → Option FeedResponse) (lines : List GoString)
    (sent : List GoString) : List GoString :=
  match lines with
  | [] => sent
  | line :: rest =>
    match unmarshal line with
    | none => scanLoop unmarshal rest sent
    | some data => scanLoop unmarshal rest (sent ++ [data.D.FEN])

/-- The function `fetchData` of `main.go`. -/
def fetchData (unmarshal : GoString → Option FeedResponse) (feed : Feed) : FetchResult :=
  if feed.requestErr then ⟨[], FeedState.FatalError⟩
  else if feed.doErr then ⟨[], FeedState.FatalError⟩
  else if feed.statusCode ≠ 200 then ⟨[], FeedState.FatalError⟩
  else
    let sent := scanLoop unmarshal feed.lines []
    if feed.scanErr then ⟨sent, FeedState.FatalError⟩
    else ⟨sent, FeedState.Closed⟩

/-! ## Vocabulary of the specification -/

/-- The placement field: the text before the first separator, or the whole string when it
has none. -/
def placement (s : GoString) : GoString :=
  s.takeWhile (fun c => !(c == ' '))

/-- The ranks of a position string: its placement field split on `'/'`. -/
def ranks (s : GoString) : List GoString :=
  Split (placement s) '/'

/-- Column total of a rank: a digit `d` in `1..8` counts `d`, any other rune counts 1. -/
def colTotal (row : GoString) : Nat :=
  match row with
  | [] => 0
  | c :: rest => (if isDigit18 c then c.toNat - '0'.toNat else 1) + colTotal rest

/-- Expansion of a rank: each digit `d` in `1..8` becomes `d` copies of `"."`, any other
rune the one-rune string holding it. -/
def expand (row : GoString) : List GoString :=
  match row with
  | [] => []
  | c :: rest =>
    (if isDigit18 c then List.replicate (c.toNat - '0'.toNat) ['.'] else [[c]]) ++ expand rest

/-- A grid is well formed when it has 8 rows of 8 cells. -/
def wellFormed (board : Board) : Prop :=
  board.length = 8 ∧ ∀ row ∈ board, row.length = 8

/-- The 12 piece letters. -/
def pieceLetters : GoString :=
  "rnbqkpRNBQKP".toList

/-- A cell the rendering switch knows: empty (`""` or `"."`) or one piece letter. -/
def knownCell (v : GoString) : Prop :=
  v = [] ∨ v = ['.'] ∨ ∃ c, c ∈ pieceLetters ∧ v = [c]

/-- The grid of the starting position. -/
def startGrid : Board :=
  [[['r'], ['n'], ['b'], ['q'], ['k'], ['b'], ['n'], ['r']],
   [['p'], ['p'], ['p'], ['p'], ['p'], ['p'], ['p'], ['p']],
   [['.'], ['.'], ['.'], ['.'], ['.'], ['.'], ['.'], ['.']],
   [['.'], ['.'], ['.'], ['.'], ['.'], ['.'], ['.'], ['.']],
   [['.'], ['.'], ['.'], ['.'], ['.'], ['.'], ['.'], ['.']],
   [['.'], ['.'], ['.'], ['.'], ['.'], ['.'], ['.'], ['.']],
   [['P'], ['P'], ['P'], ['P'], ['P'], ['P'], ['P'], ['P']],
   [['R'], ['N'], ['B'], ['Q'], ['K'], ['B'], ['N'], ['R']]]

/-- What the specification asks of an accepted string: six fields, eight segments in the
first field, and only digits `1..8` and piece letters in the segments. -/
def validFENSpec (s : GoString) : Prop :=
  ∃ first rest, Split s ' ' = first :: rest ∧ (first :: rest).length = 6 ∧
    (Split first '/').length = 8 ∧
    ∀ seg ∈ Split first '/', ∀ c ∈ seg, ('1' ≤ c ∧ c ≤ '8') ∨ c ∈ pieceLetters

/-- Number of cells one rune of a rank covers. -/
def charWidth (c : Char) : Nat :=
  if isDigit18 c then c.toNat - '0'.toNat else 1

/-- The cells one rune of a rank writes. -/
def charCells (c : Char) : List GoString :=
  if isDigit18 c then List.replicate (c.toNat - '0'.toNat) ['.'] else [[c]]

/-- The ranks fit the grid: every rank has column total at most 8, and every rank of index
8 or more is empty. -/
def fitsGrid (s : GoString) : Prop :=
  ∀ p ∈ (ranks s).enum, colTotal p.2 ≤ 8 ∧ (8 ≤ p.1 → p.2 = [])

instance fitsGridDecidable (s : GoString) : Decidable (fitsGrid s) := by
  unfold fitsGrid
  infer_instance

instance wellFormedDecidable (board : Board) : Decidable (wellFormed board) := by
  unfold wellFormed
  infer_instance

/-! ## Facts about `Split` -/

theorem Split_ne_nil (s : GoString) (sep : Char) : Split s sep ≠ [] := by
  induction s with
  | nil => simp [Split]
  | cons c cs ih =>
    unfold Split
    split
    · simp
    · split <;> simp

/-- The first segment of `Split` is the text before the first separator. -/
theorem Split_head (s : GoString) (sep : Char) :
    ∃ rest, Split s sep = s.takeWhile (fun c => !(c == sep)) :: rest := by
  induction s with
  | nil => exact ⟨[], by simp [Split]⟩
  | cons c cs ih =>
    obtain ⟨rest, h⟩ := ih
    unfold Split
    by_cases hc : c = sep
    · exact ⟨Split cs sep, by simp [hc]⟩
    · refine ⟨rest, ?_⟩
      simp [hc, h]

/-- Joining the segments with the separator gives the string back. -/
theorem Split_join (s : GoString) (sep : Char) :
    List.intercalate [sep] (Split s sep) = s := by
  induction s with
  | nil => simp [Split, List.intercalate]
  | cons c cs ih =>
    unfold Split
    by_cases hc : c = sep
    · simp only [hc, if_true]
      have hne := Split_ne_nil cs sep
      cases hs : Split cs sep with
      | nil => exact absurd hs hne
      | cons seg segs =>
        rw [hs] at ih
        simp [List.intercalate] at ih ⊢
        exact ih
    · simp only [hc, if_false]
      cases hs : Split cs sep with
      | nil => exact absurd hs (Split_ne_nil cs sep)
      | cons seg segs =>
        rw [hs] at ih
        cases segs <;> simp_all [List.intercalate]

/-- No segment holds the separator. -/
theorem Split_no_sep (s : GoString) (sep : Char) :
    ∀ seg ∈ Split s sep, sep ∉ seg := by
  induction s with
  | nil => simp [Split]
  | cons c cs ih =>
    unfold Split
    by_cases hc : c = sep
    · simp only [hc, if_true]
      intro seg hseg
      rcases List.mem_cons.1 hseg with h | h
      · simp [h]
      · exact ih seg h
    · simp only [hc, if_false]
      cases hs : Split cs sep with
      | nil => exact absurd hs (Split_ne_nil cs sep)
      | cons seg0 segs =>
        rw [hs] at ih
        intro seg hseg
        rcases List.mem_cons.1 hseg with h | h
        · subst h
          have := ih seg0 (by simp)
          simp [this, Ne.symm hc]
        · exact ih seg (by simp [h])


/-! ## The validator -/

theorem isDigit18_iff (c : Char) : isDigit18 c = true ↔ ('1' ≤ c ∧ c ≤ '8') := by
  simp [isDigit18]

theorem validChar_iff (c : Char) :
    validChar c = true ↔ (('1' ≤ c ∧ c ≤ '8') ∨ c ∈ pieceLetters) := by
  simp [validChar, ContainsRune, pieceLetters, isDigit18]

theorem rowValid_iff (row : GoString) :
    rowValid row = true ↔ ∀ c ∈ row, validChar c = true := by
  induction row with
  | nil => simp [rowValid]
  | cons c rest ih =>
    unfold rowValid
    by_cases h : validChar c = true
    · simp [h, ih]
    · simp [h]

theorem rowsValid_iff (rows : List GoString) :
    rowsValid rows = true ↔ ∀ row ∈ rows, rowValid row = true := by
  induction rows with
  | nil => simp [rowsValid]
  | cons row rest ih =>
    unfold rowsValid
    by_cases h : rowValid row = true
    · simp [h, ih]
    · simp [h]

theorem isValidFEN_iff (s : GoString) : isValidFEN s = true ↔ validFENSpec s := by
  unfold isValidFEN validFENSpec
  cases hs : Split s ' ' with
  | nil => exact absurd hs (Split_ne_nil s ' ')
  | cons first rest =>
    by_cases h6 : (first :: rest).length = 6
    · by_cases h8 : (Split first '/').length = 8
      · simp only [h6, h8, ne_eq, not_true_eq_false, if_false, rowsValid_iff, rowValid_iff,
          validChar_iff]
        constructor
        · intro h
          exact ⟨first, rest, rfl, h6, h8, h⟩
        · rintro ⟨f, r, hfr, -, -, h⟩
          cases hfr
          exact h
      · simp only [h6, h8, ne_eq, not_true_eq_false, not_false_eq_true, if_true, if_false]
        constructor
        · intro h
          cases h
        · rintro ⟨f, r, hfr, -, h, -⟩
          cases hfr
          exact absurd h h8
    · simp only [ne_eq, h6, not_false_eq_true, if_true]
      constructor
      · intro h
        cases h
      · rintro ⟨f, r, hfr, h, -⟩
        cases hfr
        exact absurd h h6

/-- The result of `isValidFEN` depends only on the number of fields and on the first
field. -/
theorem isValidFEN_congr (s t : GoString) (first : GoString) (rest rest1 : List GoString)
    (hs : Split s ' ' = first :: rest) (ht : Split t ' ' = first :: rest1)
    (hlen : rest.length = rest1.length) : isValidFEN s = isValidFEN t := by
  unfold isValidFEN
  simp only [hs, ht, List.length_cons, hlen]

theorem isValidFEN_startFEN : isValidFEN startFEN = false := by decide

theorem ConvertFENToArray_startFEN : ConvertFENToArray startFEN = some startGrid := by
  decide

/-! ## The consumer step -/

theorem updateFen_of_rejected (p : GoString) (h : p = [] ∨ isValidFEN p = false) :
    updateFen p = startFEN := by
  unfold updateFen firstCheck secondCheck
  by_cases hp : p = []
  · simp [hp, isValidFEN_startFEN]
  · rcases h with h | h
    · exact absurd h hp
    · simp [hp, h]

theorem updateFen_cases (p : GoString) :
    (isValidFEN (updateFen p) = true ∧ updateFen p = p ∧ p ≠ []) ∨ updateFen p = startFEN := by
  by_cases h : p = [] ∨ isValidFEN p = false
  · exact Or.inr (updateFen_of_rejected p h)
  · simp only [not_or, Bool.not_eq_false] at h
    left
    have : updateFen p = p := by
      unfold updateFen firstCheck secondCheck
      simp [h.1, h.2]
    rw [this]
    exact ⟨h.2, rfl, h.1⟩

/-! ## The feed reader -/

theorem scanLoop_eq (unmarshal : GoString → Option FeedResponse) (lines sent : List GoString) :
    scanLoop unmarshal lines sent =
      sent ++ lines.filterMap (fun line => (unmarshal line).map (fun data => data.D.FEN)) := by
  induction lines generalizing sent with
  | nil => simp [scanLoop]
  | cons line rest ih =>
    unfold scanLoop
    cases h : unmarshal line with
    | none => simp [ih, List.filterMap_cons, h]
    | some data => simp [ih, List.filterMap_cons, h]


/-! ## The decoder: well-formedness and the cells written -/

theorem zeroBoard_wellFormed : wellFormed zeroBoard := by
  constructor
  · simp [zeroBoard]
  · intro row h
    simp only [zeroBoard, List.mem_replicate] at h
    simp [h.2]

theorem cell_zeroBoard (r c : Nat) : cell zeroBoard r c = [] := by
  simp only [cell, zeroBoard, List.getD_eq_getElem?_getD, List.getElem?_replicate]
  by_cases hr : r < 8
  · simp only [hr, if_true, Option.getD_some, List.getElem?_replicate]
    by_cases hc : c < 8 <;> simp only [hc, if_true, if_false, Option.getD_some, Option.getD_none]
  · simp only [hr, if_false, Option.getD_none, List.getElem?_nil]

theorem wellFormed_row_length (b : Board) (hw : wellFormed b) (i : Nat) (hi : i < 8) :
    (b.getD i []).length = 8 := by
  have hlen : i < b.length := by rw [hw.1]; exact hi
  apply hw.2
  rw [List.getD_eq_getElem?_getD, List.getElem?_eq_getElem hlen]
  simp

theorem setCell_eq_some_iff (b b1 : Board) (i col : Nat) (v : GoString) :
    setCell b i col v = some b1 ↔
      (i < 8 ∧ col < 8) ∧ b1 = b.set i ((b.getD i []).set col v) := by
  unfold setCell
  by_cases h : i < 8 ∧ col < 8
  · simp [h, eq_comm]
  · simp [h]

theorem setCell_eq_none_iff (b : Board) (i col : Nat) (v : GoString) :
    setCell b i col v = none ↔ ¬ (i < 8 ∧ col < 8) := by
  unfold setCell
  by_cases h : i < 8 ∧ col < 8
  · simp [h]
  · simp [h]

theorem setCell_wellFormed (b b1 : Board) (i col : Nat) (v : GoString)
    (hw : wellFormed b) (h : setCell b i col v = some b1) : wellFormed b1 := by
  obtain ⟨⟨hi, -⟩, rfl⟩ := (setCell_eq_some_iff b b1 i col v).1 h
  constructor
  · simp [hw.1]
  · intro row hrow
    rcases List.mem_or_eq_of_mem_set hrow with h1 | h1
    · exact hw.2 row h1
    · rw [h1, List.length_set]
      exact wellFormed_row_length b hw i hi

theorem cell_setCell (b b1 : Board) (i col : Nat) (v : GoString)
    (hw : wellFormed b) (h : setCell b i col v = some b1) (r c : Nat) :
    cell b1 r c = if r = i ∧ c = col then v else cell b r c := by
  obtain ⟨⟨hi, hcol⟩, rfl⟩ := (setCell_eq_some_iff b b1 i col v).1 h
  have hlen : i < b.length := by rw [hw.1]; exact hi
  have hrow := wellFormed_row_length b hw i hi
  unfold cell
  by_cases hr : r = i
  · subst hr
    have h1 : (b.set r ((b.getD r []).set col v)).getD r [] = (b.getD r []).set col v := by
      rw [List.getD_eq_getElem?_getD, List.getElem?_set]
      simp [hlen]
    rw [h1]
    by_cases hc : c = col
    · subst hc
      rw [List.getD_eq_getElem?_getD, List.getElem?_set]
      rw [hrow]
      simp [hcol]
    · rw [List.getD_eq_getElem?_getD, List.getElem?_set_ne (Ne.symm hc),
        ← List.getD_eq_getElem?_getD]
      simp [hc]
  · have h1 : (b.set i ((b.getD i []).set col v)).getD r [] = b.getD r [] := by
      rw [List.getD_eq_getElem?_getD, List.getElem?_set_ne (Ne.symm hr),
        ← List.getD_eq_getElem?_getD]
    rw [h1]
    simp [hr]

/-- The loop that writes a digit run: it succeeds exactly when the run stays inside the
row, and then it writes `"."` to the cells it traverses and to no other. -/
theorem fillEmpty_spec (i n : Nat) (b : Board) (col : Nat) (hw : wellFormed b) :
    (∀ b1 col1, fillEmpty i n (b, col) = some (b1, col1) →
      wellFormed b1 ∧ col1 = col + n ∧
      ∀ r c, cell b1 r c = if r = i ∧ col ≤ c ∧ c < col + n then ['.'] else cell b r c) ∧
    (fillEmpty i n (b, col) = none ↔ (0 < n ∧ ¬ (i < 8 ∧ col + n ≤ 8))) := by
  induction n generalizing b col with
  | zero =>
    constructor
    · intro b1 col1 h
      simp only [fillEmpty, Option.some.injEq, Prod.mk.injEq] at h
      obtain ⟨rfl, rfl⟩ := h
      refine ⟨hw, rfl, ?_⟩
      intro r c
      have : ¬ (r = i ∧ col ≤ c ∧ c < col) := by omega
      simp [this]
    · simp [fillEmpty]
  | succ n ih =>
    unfold fillEmpty
    cases hset : setCell b i col ['.'] with
    | none =>
      have hbad := (setCell_eq_none_iff b i col ['.']).1 hset
      constructor
      · intro b1 col1 h
        simp at h
      · simp only [true_iff]
        refine ⟨Nat.succ_pos n, ?_⟩
        omega
    | some b2 =>
      have hok := ((setCell_eq_some_iff b b2 i col ['.']).1 hset).1
      have hw2 := setCell_wellFormed b b2 i col ['.'] hw hset
      have hcell := cell_setCell b b2 i col ['.'] hw hset
      obtain ⟨ih1, ih2⟩ := ih b2 (col + 1) hw2
      constructor
      · intro b1 col1 h
        obtain ⟨hw1, hc1, hcells⟩ := ih1 b1 col1 h
        refine ⟨hw1, by omega, ?_⟩
        intro r c
        rw [hcells r c, hcell r c]
        by_cases hr : r = i
        · by_cases h1 : c = col
          · have : ¬ (col + 1 ≤ c) := by omega
            simp [hr, h1]
          · by_cases h2 : col + 1 ≤ c ∧ c < col + 1 + n
            · have h3 : col ≤ c ∧ c < col + (n + 1) := by omega
              simp [hr, h2, h3]
            · have h3 : ¬ (col ≤ c ∧ c < col + (n + 1)) := by omega
              simp [hr, h1, h2, h3]
        · simp [hr]
      · simp only
        rw [ih2]
        constructor
        · rintro ⟨hn, hbad⟩
          exact ⟨Nat.succ_pos n, by omega⟩
        · rintro ⟨-, hbad⟩
          constructor
          · by_contra hn
            have : n = 0 := by omega
            subst this
            omega
          · omega


theorem colTotal_cons (c : Char) (rest : GoString) :
    colTotal (c :: rest) = charWidth c + colTotal rest := rfl

theorem expand_cons (c : Char) (rest : GoString) :
    expand (c :: rest) = charCells c ++ expand rest := rfl

theorem charCells_length (c : Char) : (charCells c).length = charWidth c := by
  unfold charCells charWidth
  split <;> simp

theorem charWidth_pos (c : Char) : 0 < charWidth c := by
  unfold charWidth
  by_cases h : isDigit18 c = true
  · have h1 := ((isDigit18_iff c).1 h).1
    have h2 : '1'.toNat ≤ c.toNat := h1
    have h3 : '1'.toNat = 49 := by decide
    have h4 : '0'.toNat = 48 := by decide
    simp only [h, if_true]
    omega
  · simp [h]

theorem expand_length (row : GoString) : (expand row).length = colTotal row := by
  induction row with
  | nil => rfl
  | cons c rest ih => rw [expand_cons, colTotal_cons, List.length_append, charCells_length, ih]

theorem colTotal_eq_zero_iff (row : GoString) : colTotal row = 0 ↔ row = [] := by
  cases row with
  | nil => simp [colTotal]
  | cons c rest =>
    have := charWidth_pos c
    rw [colTotal_cons]
    simp
    omega

/-- One step of the inner loop: it succeeds exactly when the cells of the rune stay inside
the grid, and then it writes these cells at the cursor and no other. -/
theorem placeChar_spec (i : Nat) (c : Char) (b : Board) (col : Nat) (hw : wellFormed b) :
    (∀ b1 col1, placeChar i (b, col) c = some (b1, col1) →
      wellFormed b1 ∧ col1 = col + charWidth c ∧
      ∀ r k, cell b1 r k =
        if r = i ∧ col ≤ k ∧ k < col + charWidth c then (charCells c).getD (k - col) []
        else cell b r k) ∧
    (placeChar i (b, col) c = none ↔ ¬ (i < 8 ∧ col + charWidth c ≤ 8)) := by
  have hpos := charWidth_pos c
  unfold placeChar
  by_cases hd : isDigit18 c = true
  · have hwd : charWidth c = c.toNat - '0'.toNat := by simp [charWidth, hd]
    have hcs : charCells c = List.replicate (charWidth c) ['.'] := by
      simp [charCells, charWidth, hd]
    obtain ⟨h1, h2⟩ := fillEmpty_spec i (c.toNat - '0'.toNat) b col hw
    simp only [hd, if_true]
    rw [← hwd] at h1 h2 ⊢
    constructor
    · intro b1 col1 h
      obtain ⟨hw1, hc1, hcells⟩ := h1 b1 col1 h
      refine ⟨hw1, hc1, ?_⟩
      intro r k
      rw [hcells r k, hcs]
      by_cases hk : r = i ∧ col ≤ k ∧ k < col + charWidth c
      · have : k - col < charWidth c := by omega
        simp [hk, List.getD_eq_getElem?_getD, List.getElem?_replicate, this]
      · simp [hk]
    · rw [h2]
      constructor
      · exact fun h => h.2
      · exact fun h => ⟨hpos, h⟩
  · have hwd : charWidth c = 1 := by simp [charWidth, hd]
    have hcs : charCells c = [[c]] := by simp [charCells, hd]
    simp only [hd, Bool.false_eq_true, if_false]
    cases hset : setCell b i col [c] with
    | none =>
      have hbad := (setCell_eq_none_iff b i col [c]).1 hset
      constructor
      · intro b1 col1 h
        simp at h
      · simp only [true_iff]
        omega
    | some b2 =>
      have hok := ((setCell_eq_some_iff b b2 i col [c]).1 hset).1
      constructor
      · intro b1 col1 h
        simp only [Option.some.injEq, Prod.mk.injEq] at h
        obtain ⟨rfl, rfl⟩ := h
        refine ⟨setCell_wellFormed b b2 i col [c] hw hset, by rw [hwd], ?_⟩
        intro r k
        rw [cell_setCell b b2 i col [c] hw hset r k, hwd, hcs]
        by_cases hk : r = i ∧ k = col
        · have h3 : r = i ∧ col ≤ k ∧ k < col + 1 := by omega
          have h4 : k - col = 0 := by omega
          simp only [hk, h3]
          simp
        · have h3 : ¬ (r = i ∧ col ≤ k ∧ k < col + 1) := by omega
          simp only [hk, h3, if_false]
      · rw [hwd]
        constructor
        · intro h
          cases h
        · intro h
          exact absurd ⟨hok.1, by omega⟩ h

/-- The inner loop over one rank: it succeeds exactly when the rank is empty or its cells
stay inside the grid, and then it writes the expansion of the rank from the cursor on and
nothing else. -/
theorem scanRow_spec (i : Nat) (row : GoString) (b : Board) (col : Nat) (hw : wellFormed b) :
    (∀ b1 col1, scanRow i row (b, col) = some (b1, col1) →
      wellFormed b1 ∧ col1 = col + colTotal row ∧
      ∀ r k, cell b1 r k =
        if r = i ∧ col ≤ k ∧ k < col + colTotal row then (expand row).getD (k - col) []
        else cell b r k) ∧
    (scanRow i row (b, col) = none ↔
      (0 < colTotal row ∧ ¬ (i < 8 ∧ col + colTotal row ≤ 8))) := by
  induction row generalizing b col with
  | nil =>
    constructor
    · intro b1 col1 h
      simp only [scanRow, Option.some.injEq, Prod.mk.injEq] at h
      obtain ⟨rfl, rfl⟩ := h
      refine ⟨hw, rfl, ?_⟩
      intro r k
      have : ¬ (r = i ∧ col ≤ k ∧ k < col + colTotal []) := by
        simp only [colTotal]
        omega
      simp only [this, if_false]
    · simp [scanRow, colTotal]
  | cons c rest ih =>
    obtain ⟨p1, p2⟩ := placeChar_spec i c b col hw
    have hpos := charWidth_pos c
    unfold scanRow
    rw [colTotal_cons, expand_cons]
    cases hp : placeChar i (b, col) c with
    | none =>
      have hbad := p2.1 hp
      constructor
      · intro b1 col1 h
        simp at h
      · simp only [true_iff]
        omega
    | some st =>
      obtain ⟨b2, col2⟩ := st
      obtain ⟨hw2, hc2, hcells2⟩ := p1 b2 col2 hp
      have hok : i < 8 ∧ col + charWidth c ≤ 8 := by
        by_contra hn
        rw [p2.2 hn] at hp
        cases hp
      obtain ⟨ih1, ih2⟩ := ih b2 col2 hw2
      constructor
      · intro b1 col1 h
        obtain ⟨hw1, hc1, hcells1⟩ := ih1 b1 col1 h
        refine ⟨hw1, by omega, ?_⟩
        intro r k
        rw [hcells1 r k, hcells2 r k]
        by_cases hr : r = i
        · by_cases hk1 : col ≤ k ∧ k < col + charWidth c
          · have h3 : ¬ (col2 ≤ k) := by omega
            have h4 : col ≤ k ∧ k < col + (charWidth c + colTotal rest) := by omega
            have h5 : k - col < (charCells c).length := by
              rw [charCells_length]
              omega
            simp only [hr, hk1, h3, h4, true_and, and_self, false_and, if_true, if_false]
            rw [List.getD_append _ _ _ _ h5]
          · by_cases hk2 : col2 ≤ k ∧ k < col2 + colTotal rest
            · have h4 : col ≤ k ∧ k < col + (charWidth c + colTotal rest) := by omega
              have h5 : (charCells c).length ≤ k - col := by
                rw [charCells_length]
                omega
              have h6 : k - col - (charCells c).length = k - col2 := by
                rw [charCells_length]
                omega
              simp only [hr, hk2, h4, true_and, and_self, if_true]
              rw [List.getD_append_right _ _ _ _ h5, h6]
            · have h4 : ¬ (col ≤ k ∧ k < col + (charWidth c + colTotal rest)) := by omega
              simp only [hr, hk1, hk2, h4, true_and, and_false, if_false]
        · simp only [hr, false_and, if_false]
      · simp only
        rw [ih2]
        constructor
        · rintro ⟨h1, h2⟩
          exact ⟨by omega, by omega⟩
        · rintro ⟨-, h2⟩
          constructor
          · by_contra hn
            have : colTotal rest = 0 := by omega
            omega
          · omega


/-- The outer loop over the ranks: it fails exactly when some non-empty rank has index
above 7 or column total above 8; when it succeeds, row `i + n` holds the expansion of the
`n`-th rank in its first cells and every other cell is unchanged. -/
theorem scanRows_spec (rows : List GoString) (i : Nat) (b : Board) (hw : wellFormed b) :
    (∀ b1, scanRows i rows b = some b1 →
      wellFormed b1 ∧
      ∀ r k, cell b1 r k =
        if i ≤ r ∧ r < i + rows.length ∧ k < colTotal (rows.getD (r - i) []) then
          (expand (rows.getD (r - i) [])).getD k []
        else cell b r k) ∧
    (scanRows i rows b = none ↔
      ∃ n row, rows[n]? = some row ∧ 0 < colTotal row ∧ ¬ (i + n < 8 ∧ colTotal row ≤ 8)) := by
  induction rows generalizing i b with
  | nil =>
    constructor
    · intro b1 h
      simp only [scanRows, Option.some.injEq] at h
      subst h
      refine ⟨hw, ?_⟩
      intro r k
      have : ¬ (i ≤ r ∧ r < i + ([] : List GoString).length ∧
          k < colTotal (([] : List GoString).getD (r - i) [])) := by
        simp only [List.length_nil]
        omega
      simp only [this, if_false]
    · simp [scanRows]
  | cons row rest ih =>
    obtain ⟨s1, s2⟩ := scanRow_spec i row b 0 hw
    unfold scanRows
    cases hs : scanRow i row (b, 0) with
    | none =>
      have hbad := s2.1 hs
      constructor
      · intro b1 h
        simp at h
      · simp only [true_iff]
        refine ⟨0, row, by simp, hbad.1, ?_⟩
        have := hbad.2
        omega
    | some st =>
      obtain ⟨b2, col2⟩ := st
      obtain ⟨hw2, -, hcells2⟩ := s1 b2 col2 hs
      have hok : ¬ (0 < colTotal row ∧ ¬ (i < 8 ∧ 0 + colTotal row ≤ 8)) := by
        intro hn
        rw [s2.2 hn] at hs
        cases hs
      obtain ⟨ih1, ih2⟩ := ih (i + 1) b2 hw2
      constructor
      · intro b1 h
        obtain ⟨hw1, hcells1⟩ := ih1 b1 h
        refine ⟨hw1, ?_⟩
        intro r k
        rw [hcells1 r k, hcells2 r k]
        by_cases hr : r = i
        · subst hr
          have h3 : ¬ (r + 1 ≤ r) := by omega
          have h4 : r - r = 0 := by omega
          simp only [h3, false_and, if_false, h4, List.getD_cons_zero, List.length_cons,
            true_and, le_refl, Nat.zero_le, Nat.zero_add, Nat.sub_zero]
          have h5 : r < r + (rest.length + 1) := by omega
          simp only [h5, true_and]
        · by_cases hlt : i + 1 ≤ r
          · have h3 : r - i = (r - (i + 1)) + 1 := by omega
            have h4 : i ≤ r := by omega
            have h5 : (r < i + 1 + rest.length) ↔ (r < i + (rest.length + 1)) := by omega
            simp only [hr, false_and, if_false, h3, List.getD_cons_succ, List.length_cons,
              hlt, h4, true_and, h5]
          · have h4 : ¬ (i ≤ r) := by omega
            simp only [hr, hlt, h4, false_and, if_false]
      · simp only
        rw [ih2]
        constructor
        · rintro ⟨n, row1, h1, h2, h3⟩
          refine ⟨n + 1, row1, by simpa using h1, h2, ?_⟩
          omega
        · rintro ⟨n, row1, h1, h2, h3⟩
          cases n with
          | zero =>
            simp only [List.getElem?_cons_zero, Option.some.injEq] at h1
            subst h1
            exfalso
            apply hok
            refine ⟨h2, ?_⟩
            omega
          | succ m =>
            refine ⟨m, row1, by simpa using h1, h2, ?_⟩
            omega

/-- The placement field is the first element of the split on the space. -/
theorem Split_space_head (s : GoString) : ∃ rest, Split s ' ' = placement s :: rest :=
  Split_head s ' '

/-- The decoder runs the outer loop on the ranks of the placement field. -/
theorem ConvertFENToArray_eq (s : GoString) :
    ConvertFENToArray s = scanRows 0 (ranks s) zeroBoard := by
  unfold ConvertFENToArray
  by_cases hs : s = []
  · subst hs
    simp only [if_true]
    decide
  · obtain ⟨rest, h⟩ := Split_space_head s
    simp only [hs, if_false, h, ranks]


theorem getD_mem_of_lt {α : Type} (l : List α) (k : Nat) (d : α) (h : k < l.length) :
    l.getD k d ∈ l := by
  rw [List.getD_eq_getElem?_getD, List.getElem?_eq_getElem h]
  simp

theorem fitsGrid_iff (s : GoString) :
    fitsGrid s ↔
      ¬ ∃ n row, (ranks s)[n]? = some row ∧ 0 < colTotal row ∧
        ¬ (0 + n < 8 ∧ colTotal row ≤ 8) := by
  unfold fitsGrid
  constructor
  · rintro h ⟨n, row, h1, h2, h3⟩
    have := h (n, row) (List.mem_enum_iff_getElem?.2 h1)
    simp only at this
    by_cases hn : 8 ≤ n
    · have h4 := this.2 hn
      rw [h4] at h2
      simp [colTotal] at h2
    · omega
  · intro h p hp
    have hp1 := List.mem_enum_iff_getElem?.1 hp
    constructor
    · by_contra hn
      exact h ⟨p.1, p.2, hp1, by omega, by omega⟩
    · intro h8
      by_contra hn
      have : colTotal p.2 ≠ 0 := fun h0 => hn ((colTotal_eq_zero_iff p.2).1 h0)
      exact h ⟨p.1, p.2, hp1, by omega, by omega⟩

/-- The decoder panics exactly on the strings whose ranks do not fit the grid. -/
theorem ConvertFENToArray_none_iff (s : GoString) :
    ConvertFENToArray s = none ↔ ¬ fitsGrid s := by
  rw [ConvertFENToArray_eq, fitsGrid_iff, not_not]
  exact (scanRows_spec (ranks s) 0 zeroBoard zeroBoard_wellFormed).2

theorem ConvertFENToArray_wellFormed (s : GoString) (g : Board)
    (h : ConvertFENToArray s = some g) : wellFormed g := by
  rw [ConvertFENToArray_eq] at h
  exact ((scanRows_spec (ranks s) 0 zeroBoard zeroBoard_wellFormed).1 g h).1

/-- Every cell of a decoded grid, in terms of the ranks. -/
theorem ConvertFENToArray_cell (s : GoString) (g : Board)
    (h : ConvertFENToArray s = some g) (r k : Nat) :
    cell g r k =
      if r < (ranks s).length ∧ k < colTotal ((ranks s).getD r []) then
        (expand ((ranks s).getD r [])).getD k []
      else [] := by
  rw [ConvertFENToArray_eq] at h
  have := ((scanRows_spec (ranks s) 0 zeroBoard zeroBoard_wellFormed).1 g h).2 r k
  rw [this, cell_zeroBoard]
  simp

theorem expand_mem (row : GoString) (x : GoString) (hx : x ∈ expand row) :
    x = ['.'] ∨ ∃ c, c ∈ row ∧ isDigit18 c = false ∧ x = [c] := by
  induction row with
  | nil => simp [expand] at hx
  | cons c rest ih =>
    rw [expand_cons, List.mem_append] at hx
    rcases hx with h | h
    · unfold charCells at h
      by_cases hd : isDigit18 c = true
      · simp only [hd, if_true, List.mem_replicate] at h
        exact Or.inl h.2
      · simp only [hd, Bool.false_eq_true, if_false, List.mem_singleton] at h
        exact Or.inr ⟨c, by simp, by simpa using hd, h⟩
    · rcases ih h with h1 | ⟨d, hd1, hd2, hd3⟩
      · exact Or.inl h1
      · exact Or.inr ⟨d, by simp [hd1], hd2, hd3⟩

/-- A string the validator accepts has only valid runes in its ranks. -/
theorem isValidFEN_ranks (s : GoString) (h : isValidFEN s = true) :
    (ranks s).length = 8 ∧ rowsValid (ranks s) = true := by
  obtain ⟨rest, hs⟩ := Split_space_head s
  unfold isValidFEN at h
  simp only [hs] at h
  unfold ranks
  by_cases h6 : (placement s :: rest).length = 6
  · by_cases h8 : (Split (placement s) '/').length = 8
    · simp only [h6, h8, ne_eq, not_true_eq_false, if_false] at h
      exact ⟨h8, h⟩
    · simp [h6, h8] at h
  · rw [if_pos h6] at h
    cases h

/-- When the runes of the ranks are all valid, every cell of the decoded grid is empty or a
piece letter. -/
theorem ConvertFENToArray_known (s : GoString) (g : Board)
    (hv : rowsValid (ranks s) = true) (h : ConvertFENToArray s = some g) (r k : Nat) :
    knownCell (cell g r k) := by
  rw [ConvertFENToArray_cell s g h r k]
  by_cases hc : r < (ranks s).length ∧ k < colTotal ((ranks s).getD r [])
  · simp only [hc, and_self, if_true]
    have hrow : (ranks s).getD r [] ∈ ranks s := getD_mem_of_lt _ _ _ hc.1
    have hk : k < (expand ((ranks s).getD r [])).length := by
      rw [expand_length]
      exact hc.2
    have hmem : (expand ((ranks s).getD r [])).getD k [] ∈ expand ((ranks s).getD r []) :=
      getD_mem_of_lt _ _ _ hk
    rcases expand_mem _ _ hmem with h1 | ⟨c, hc1, hc2, hc3⟩
    · exact Or.inr (Or.inl h1)
    · have hvc := (rowValid_iff _).1 ((rowsValid_iff _).1 hv _ hrow) c hc1
      rcases (validChar_iff c).1 hvc with h2 | h2
      · have := (isDigit18_iff c).2 h2
        rw [hc2] at this
        cases this
      · exact Or.inr (Or.inr ⟨c, h2, hc3⟩)
  · simp only [hc, if_false]
    exact Or.inl rfl

theorem rowsValid_startFEN : rowsValid (ranks startFEN) = true := by decide


theorem fitsGrid_of_bounds (s : GoString) (hlen : (ranks s).length ≤ 8)
    (hcol : ∀ row ∈ ranks s, colTotal row ≤ 8) : fitsGrid s := by
  intro p hp
  have h1 := List.mem_enum_iff_getElem?.1 hp
  have h2 : p.1 < (ranks s).length := by
    by_contra hn
    rw [List.getElem?_eq_none (by omega)] at h1
    cases h1
  have h3 : p.2 ∈ ranks s := List.mem_iff_getElem?.2 ⟨p.1, h1⟩
  exact ⟨hcol p.2 h3, fun h8 => by omega⟩

theorem getD_of_getElem? {α : Type} (l : List α) (k : Nat) (d x : α) (h : l[k]? = some x) :
    l.getD k d = x := by
  rw [List.getD_eq_getElem?_getD, h]
  rfl

/-! ## The claims -/

/-- C1: `isValidFEN s` is true exactly when splitting `s` on the space gives 6 fields,
splitting the first field on `'/'` gives 8 segments, and every rune of every segment is a
digit `1..8` or a piece letter.  It is false on the empty string; it accepts ranks whose
column total is not 8; and two strings with the same first field and the same number of
fields get the same answer, whatever the other fields hold. -/
theorem isValidFEN_characterisation (s : GoString) :
    (isValidFEN s = true ↔ validFENSpec s) ∧
    isValidFEN [] = false ∧
    isValidFEN "88//8/8/8/8/8/8 w - - 0 1".toList = true ∧
    (∀ (t first : GoString) (rest rest1 : List GoString),
      Split s ' ' = first :: rest → Split t ' ' = first :: rest1 →
      rest.length = rest1.length → isValidFEN s = isValidFEN t) :=
  ⟨isValidFEN_iff s, by decide, by decide,
    fun t first rest rest1 hs ht hlen => isValidFEN_congr s t first rest rest1 hs ht hlen⟩

theorem isValidFEN_characterisation_witness :
    isValidFEN "8/8/8/8/8/8/8/8 w KQkq - 0 1".toList =
      isValidFEN "8/8/8/8/8/8/8/8 ?? !! zz 99 xx".toList :=
  (isValidFEN_characterisation "8/8/8/8/8/8/8/8 w KQkq - 0 1".toList).2.2.2
    "8/8/8/8/8/8/8/8 ?? !! zz 99 xx".toList "8/8/8/8/8/8/8/8".toList
    ["w".toList, "KQkq".toList, "-".toList, "0".toList, "1".toList]
    ["??".toList, "!!".toList, "zz".toList, "99".toList, "xx".toList]
    (by decide) (by decide) (by decide)

/-- C2: for a received position that is empty or that `isValidFEN` rejects, the grid
`update` decodes is the starting-position grid, whatever the position holds. -/
theorem updateBoard_of_rejected (p : GoString) (h : p = [] ∨ isValidFEN p = false) :
    updateBoard p = some startGrid := by
  unfold updateBoard
  rw [updateFen_of_rejected p h]
  exact ConvertFENToArray_startFEN

theorem updateBoard_of_rejected_witness :
    ("9/zz/#".toList = [] ∨ isValidFEN "9/zz/#".toList = false) ∧
      updateBoard "9/zz/#".toList = some startGrid :=
  ⟨Or.inr (by decide), updateBoard_of_rejected "9/zz/#".toList (Or.inr (by decide))⟩

/-- C3, as stated, fails: on a rank of nine pawns, on a rank `88` and on a ninth non-empty
rank the decoder writes out of range and panics; the validator rejects all three. -/
theorem ConvertFENToArray_panics :
    ConvertFENToArray "ppppppppp".toList = none ∧ isValidFEN "ppppppppp".toList = false ∧
    ConvertFENToArray "88".toList = none ∧ isValidFEN "88".toList = false ∧
    ConvertFENToArray "8/8/8/8/8/8/8/8/p w - - 0 1".toList = none ∧
    isValidFEN "8/8/8/8/8/8/8/8/p w - - 0 1".toList = false := by
  decide

/-- C3, amended: `ConvertFENToArray s` returns a well-formed 8x8 grid when every rank of
the placement field has column total at most 8 and every rank of index 8 or more is empty,
whether or not `isValidFEN` accepts `s`; on every other string it panics. -/
theorem ConvertFENToArray_total_iff (s : GoString) :
    (fitsGrid s → ∃ g, ConvertFENToArray s = some g ∧ wellFormed g) ∧
    (¬ fitsGrid s → ConvertFENToArray s = none) := by
  constructor
  · intro hfit
    cases h : ConvertFENToArray s with
    | none => exact absurd hfit ((ConvertFENToArray_none_iff s).1 h)
    | some g => exact ⟨g, rfl, ConvertFENToArray_wellFormed s g h⟩
  · exact (ConvertFENToArray_none_iff s).2

theorem ConvertFENToArray_total_iff_witness :
    fitsGrid "rn?x/44/p7//Z w".toList ∧ isValidFEN "rn?x/44/p7//Z w".toList = false ∧
      ∃ g, ConvertFENToArray "rn?x/44/p7//Z w".toList = some g ∧ wellFormed g :=
  ⟨by decide, by decide,
    (ConvertFENToArray_total_iff "rn?x/44/p7//Z w".toList).1 (by decide)⟩

/-- C4, at the failing input: the validator accepts a six-field position whose seventh rank
holds nine pawns, `update` keeps it, and the decoder panics on it. -/
theorem updateBoard_panics_on_accepted :
    isValidFEN "rnbqkbnr/pppppppp/8/8/8/8/PPPPPPPPP/RNBQKBNR w KQkq - 0 1".toList = true ∧
    updateFen "rnbqkbnr/pppppppp/8/8/8/8/PPPPPPPPP/RNBQKBNR w KQkq - 0 1".toList =
      "rnbqkbnr/pppppppp/8/8/8/8/PPPPPPPPP/RNBQKBNR w KQkq - 0 1".toList ∧
    updateBoard "rnbqkbnr/pppppppp/8/8/8/8/PPPPPPPPP/RNBQKBNR w KQkq - 0 1".toList = none := by
  decide

/-- C5: decoding `"rnbqkbnr/pppppppp/8/8/8/8/PPPPPPPP/RNBQKBNR"` gives row 0
`r,n,b,q,k,b,n,r`, row 1 eight `p`, rows 2 to 5 eight `"."` each, row 6 eight `P` and
row 7 `R,N,B,Q,K,B,N,R`. -/
theorem ConvertFENToArray_starting_position :
    ConvertFENToArray "rnbqkbnr/pppppppp/8/8/8/8/PPPPPPPP/RNBQKBNR".toList = some
      [["r".toList, "n".toList, "b".toList, "q".toList, "k".toList, "b".toList, "n".toList,
        "r".toList],
       List.replicate 8 "p".toList,
       List.replicate 8 ".".toList,
       List.replicate 8 ".".toList,
       List.replicate 8 ".".toList,
       List.replicate 8 ".".toList,
       List.replicate 8 "P".toList,
       ["R".toList, "N".toList, "B".toList, "Q".toList, "K".toList, "B".toList, "N".toList,
        "R".toList]] := by
  decide


/-- C6: after a successful connect, the values `fetchData` sends on the channel are, in
the order of the lines, the `d.fen` field of every line that decodes; a line that does not
decode contributes nothing and does not stop the loop, and an empty `fen` is sent as is. -/
theorem fetchData_sent (unmarshal : GoString → Option FeedResponse) (feed : Feed)
    (hreq : feed.requestErr = false) (hdo : feed.doErr = false)
    (hstatus : feed.statusCode = 200) :
    (fetchData unmarshal feed).sent =
      feed.lines.filterMap (fun line => (unmarshal line).map (fun data => data.D.FEN)) := by
  unfold fetchData
  simp only [hreq, hdo, hstatus, Bool.false_eq_true, if_false, ne_eq, not_true_eq_false]
  split <;> simp [scanLoop_eq]

theorem fetchData_sent_witness :
    (fetchData
      (fun line => if line = "bad".toList then none
        else some ⟨"fen".toList, ⟨line, [], 0, 0⟩⟩)
      ⟨false, false, 200,
        ["bad".toList, "8/8 w".toList, [], "bad".toList, "8/8 w".toList, "k7".toList],
        false⟩).sent =
      ["8/8 w".toList, [], "8/8 w".toList, "k7".toList] :=
  (fetchData_sent
    (fun line => if line = "bad".toList then none
      else some ⟨"fen".toList, ⟨line, [], 0, 0⟩⟩)
    ⟨false, false, 200,
      ["bad".toList, "8/8 w".toList, [], "bad".toList, "8/8 w".toList, "k7".toList],
      false⟩ rfl rfl rfl).trans (by decide)

/-- C7, as stated, fails: after a successful connect, a stream that ends with a read error
of the scanner takes `fetchData` to `log.Fatal`, the fatal state, and the channel is not
closed. -/
theorem fetchData_read_error_is_fatal :
    (fetchData (fun _ => none) ⟨false, false, 200, ["x".toList], true⟩).final =
      FeedState.FatalError := by
  decide

/-- C7, amended: after a successful connect, `fetchData` returns and closes the channel
exactly when the stream ends without a scanner error; when the scanner reports a read
error it ends in the fatal state. -/
theorem fetchData_final (unmarshal : GoString → Option FeedResponse) (feed : Feed)
    (hreq : feed.requestErr = false) (hdo : feed.doErr = false)
    (hstatus : feed.statusCode = 200) :
    ((fetchData unmarshal feed).final = FeedState.Closed ↔ feed.scanErr = false) ∧
    ((fetchData unmarshal feed).final = FeedState.FatalError ↔ feed.scanErr = true) := by
  unfold fetchData
  simp only [hreq, hdo, hstatus, Bool.false_eq_true, if_false, ne_eq, not_true_eq_false]
  cases feed.scanErr <;> simp

theorem fetchData_final_witness :
    (fetchData (fun _ => none) ⟨false, false, 200, ["x".toList], false⟩).final =
      FeedState.Closed :=
  ((fetchData_final (fun _ => none) ⟨false, false, 200, ["x".toList], false⟩
    rfl rfl rfl).1).2 rfl

/-- C8: when the step of `update` on a received position produces a grid, the grid has 8
rows of 8 cells and each of its 64 cells is `""`, `"."` or one of the 12 piece letters. -/
theorem updateBoard_cells_known (p : GoString) (g : Board) (h : updateBoard p = some g) :
    wellFormed g ∧ ∀ i j, i < 8 → j < 8 → knownCell (cell g i j) := by
  unfold updateBoard at h
  refine ⟨ConvertFENToArray_wellFormed _ g h, ?_⟩
  intro i j _ _
  rcases updateFen_cases p with ⟨hv, -, -⟩ | hs
  · exact ConvertFENToArray_known _ g (isValidFEN_ranks _ hv).2 h i j
  · rw [hs] at h
    exact ConvertFENToArray_known startFEN g rowsValid_startFEN h i j

theorem updateBoard_cells_known_witness :
    updateBoard "r6K/8/8/8/8/8/8/8 b - - 3 40".toList =
        some (["r".toList :: (List.replicate 6 ".".toList ++ ["K".toList])] ++
          List.replicate 7 (List.replicate 8 ".".toList)) ∧
      (wellFormed (["r".toList :: (List.replicate 6 ".".toList ++ ["K".toList])] ++
          List.replicate 7 (List.replicate 8 ".".toList)) ∧
        ∀ i j, i < 8 → j < 8 →
          knownCell (cell (["r".toList :: (List.replicate 6 ".".toList ++ ["K".toList])] ++
            List.replicate 7 (List.replicate 8 ".".toList)) i j)) :=
  ⟨by decide, updateBoard_cells_known "r6K/8/8/8/8/8/8/8 b - - 3 40".toList _ (by decide)⟩

/-- C9: when the placement field of `s` has at most 8 ranks, each of column total at most
8, `ConvertFENToArray s` succeeds with a well-formed grid in which cell `(i, j)` is the
`j`-th symbol of the expansion of rank `i` when rank `i` exists and `j` is below its column
total, and `""` otherwise.  `"8/8/8/8/8/8/8/8"` decodes to 64 cells `"."` and the empty
string to the zero-valued grid. -/
theorem ConvertFENToArray_grid_of_ranks :
    (∀ s : GoString, (ranks s).length ≤ 8 → (∀ row ∈ ranks s, colTotal row ≤ 8) →
      ∃ g, ConvertFENToArray s = some g ∧ wellFormed g ∧
        ∀ i j, i < 8 → j < 8 →
          (∀ row, (ranks s)[i]? = some row → j < colTotal row →
            (expand row)[j]? = some (cell g i j)) ∧
          (∀ row, (ranks s)[i]? = some row → colTotal row ≤ j → cell g i j = []) ∧
          ((ranks s)[i]? = none → cell g i j = [])) ∧
    ConvertFENToArray "8/8/8/8/8/8/8/8".toList =
      some (List.replicate 8 (List.replicate 8 ".".toList)) ∧
    ConvertFENToArray [] = some (List.replicate 8 (List.replicate 8 [])) := by
  refine ⟨?_, by decide, by decide⟩
  intro s hlen hcol
  have hfit := fitsGrid_of_bounds s hlen hcol
  cases h : ConvertFENToArray s with
  | none => exact absurd hfit ((ConvertFENToArray_none_iff s).1 h)
  | some g =>
    refine ⟨g, rfl, ConvertFENToArray_wellFormed s g h, ?_⟩
    intro i j _ _
    have hcell := ConvertFENToArray_cell s g h i j
    refine ⟨?_, ?_, ?_⟩
    · intro row hrow hj
      have hi : i < (ranks s).length := by
        by_contra hn
        rw [List.getElem?_eq_none (by omega)] at hrow
        cases hrow
      have hget := getD_of_getElem? (ranks s) i [] row hrow
      rw [hget] at hcell
      rw [hcell, if_pos ⟨hi, hj⟩]
      have hk : j < (expand row).length := by
        rw [expand_length]
        exact hj
      rw [List.getD_eq_getElem?_getD, List.getElem?_eq_getElem hk]
      rfl
    · intro row hrow hj
      have hget := getD_of_getElem? (ranks s) i [] row hrow
      rw [hget] at hcell
      rw [hcell, if_neg (by omega)]
    · intro hnone
      have hi : ¬ i < (ranks s).length := by
        intro hlt
        rw [List.getElem?_eq_getElem hlt] at hnone
        cases hnone
      rw [hcell, if_neg (fun hc => hi hc.1)]

theorem ConvertFENToArray_grid_of_ranks_witness :
    (ranks "r3k2r/pp1n?/44 w".toList).length ≤ 8 ∧
      (∀ row ∈ ranks "r3k2r/pp1n?/44 w".toList, colTotal row ≤ 8) ∧
      ∃ g, ConvertFENToArray "r3k2r/pp1n?/44 w".toList = some g ∧ wellFormed g ∧
        ∀ i j, i < 8 → j < 8 →
          (∀ row, (ranks "r3k2r/pp1n?/44 w".toList)[i]? = some row → j < colTotal row →
            (expand row)[j]? = some (cell g i j)) ∧
          (∀ row, (ranks "r3k2r/pp1n?/44 w".toList)[i]? = some row → colTotal row ≤ j →
            cell g i j = []) ∧
          ((ranks "r3k2r/pp1n?/44 w".toList)[i]? = none → cell g i j = []) :=
  ⟨by decide, by decide,
    ConvertFENToArray_grid_of_ranks.1 "r3k2r/pp1n?/44 w".toList (by decide) (by decide)⟩

/-- C10: `isValidFEN` is false on the starting-position string of `update` and of `main`,
which has one space-delimited field.  An empty position is replaced by it, the second
check of `update` rejects the replacement and substitutes the same string, and the string
`update` decodes is always one that `isValidFEN` accepts or this fallback string. -/
theorem update_fallback_is_rejected :
    isValidFEN startFEN = false ∧ isValidFEN InitalFEN = false ∧
    (Split startFEN ' ').length = 1 ∧
    firstCheck [] = startFEN ∧ isValidFEN (firstCheck []) = false ∧
    secondCheck (firstCheck []) = startFEN ∧
    ∀ p : GoString, isValidFEN (updateFen p) = true ∨
      (updateFen p = startFEN ∧ isValidFEN (updateFen p) = false) := by
  refine ⟨by decide, by decide, by decide, by decide, by decide, by decide, ?_⟩
  intro p
  rcases updateFen_cases p with ⟨hv, -, -⟩ | hs
  · exact Or.inl hv
  · exact Or.inr ⟨hs, by rw [hs]; exact isValidFEN_startFEN⟩


end LichessWatch
